import Mathlib

/-!
Verification of the `prepeek` crate (`src/lib.rs`): a lookahead adapter
`Prepeek<I, L>` wrapping an iterator with a fixed ring buffer of `L`
`Option` slots.

The underlying Rust iterator is modelled by its observable behaviour under
repeated `next()` calls: a list of `Option` responses still to be produced.
An empty list answers `none` forever, which models an exhausted iterator;
a list may also contain `none` followed by `some _`, which models a
non-fused iterator that yields again after reporting exhaustion.
-/

/-- One pull on the underlying iterator (`self.iter.next()` in Rust):
returns the next response and the remaining responses. An exhausted
iterator (empty response list) answers `none` and stays exhausted. -/
def iterNext {α : Type} (iter : List (Option α)) : Option α × List (Option α) :=
  match iter with
  | [] => (none, [])
  | v :: rest => (v, rest)

/-- The state of `Prepeek<I, L>` from `src/lib.rs`: the wrapped iterator
`iter`, the ring buffer `ring` of `L` optional slots (`[Option<I::Item>; L]`),
and `ring_index`. -/
structure Prepeek (α : Type) (L : Nat) where
  iter : List (Option α)
  ring : List (Option α)
  ring_index : Nat
deriving DecidableEq, Repr

/-- `Iterator::next` for `Prepeek` (src/lib.rs lines 90–97):
pull `v` from the wrapped iterator; if `L != 0`, swap `v` with the slot at
`ring_index` (returning the old slot value) and step `ring_index` to
`(ring_index + 1) % L`; if `L == 0`, return `v` directly. -/
def Prepeek.next {α : Type} {L : Nat} (s : Prepeek α L) : Option α × Prepeek α L :=
  let p := iterNext s.iter
  if L ≠ 0 then
    (s.ring.getD s.ring_index none,
      ⟨p.2, s.ring.set s.ring_index p.1, (s.ring_index + 1) % L⟩)
  else
    (p.1, ⟨p.2, s.ring, s.ring_index⟩)

/-- `Prepeek::peek_nth::<N>` (src/lib.rs lines 77–84): `none` when `N ≥ L`,
otherwise the contents of slot `(ring_index + N) % L`. (`as_ref` maps a
slot `Some x` to `Some &x` and `None` to `None`, so the returned value is
the slot's contents.) -/
def Prepeek.peek_nth {α : Type} {L : Nat} (s : Prepeek α L) (n : Nat) : Option α :=
  if n ≥ L then none
  else s.ring.getD ((s.ring_index + n) % L) none

/-- `Prepeek::peek` (src/lib.rs lines 48–50): `self.peek_nth::<0>()`. -/
def Prepeek.peek {α : Type} {L : Nat} (s : Prepeek α L) : Option α :=
  s.peek_nth 0

/-- The `for _ in 0..L { s.next(); }` loop in `Prepeek::new`: perform `k`
calls to `next`, discarding their results. -/
def Prepeek.primeAux {α : Type} {L : Nat} : Nat → Prepeek α L → Prepeek α L
  | 0, s => s
  | k + 1, s => Prepeek.primeAux k (s.next).2

/-- `Prepeek::new` (src/lib.rs lines 16–27): start from `iter`, a ring of
`L` `None` slots and `ring_index = 0`, then call `next` `L` times to fill
the ring. -/
def Prepeek.new {α : Type} (L : Nat) (iter : List (Option α)) : Prepeek α L :=
  Prepeek.primeAux L ⟨iter, List.replicate L none, 0⟩

/-- The state reached after `k` further calls to `next`. -/
def Prepeek.stateAfter {α : Type} {L : Nat} (s : Prepeek α L) : Nat → Prepeek α L
  | 0 => s
  | k + 1 => ((s.stateAfter k).next).2

/-- The value returned by the `(n+1)`-th call to `next` starting from
state `s` (0-indexed: `output s 0` is the first value `next` returns). -/
def Prepeek.output {α : Type} {L : Nat} (s : Prepeek α L) (n : Nat) : Option α :=
  ((s.stateAfter n).next).1

/-- Well-formedness of a `Prepeek` state: the ring has exactly `L` slots
and, when `L > 0`, the ring index is in bounds. -/
def Prepeek.Good {α : Type} {L : Nat} (s : Prepeek α L) : Prop :=
  s.ring.length = L ∧ (0 < L → s.ring_index < L)

/-- Observable operations on the adapter, used to express that peeking is
read-only while `next` is the only mutator. -/
inductive Op where
  | advance : Op
  | peekN : Nat → Op
deriving DecidableEq, Repr

/-- Run one operation: `advance` is `Prepeek.next`; `peekN n` is
`Prepeek.peek_nth`, which takes `&self` in Rust and hence leaves the
state unchanged. -/
def runOp {α : Type} {L : Nat} (s : Prepeek α L) : Op → Option α × Prepeek α L
  | Op.advance => s.next
  | Op.peekN n => (s.peek_nth n, s)

/-- Run a list of operations, collecting the observed values. -/
def runOps {α : Type} {L : Nat} (s : Prepeek α L) : List Op → List (Option α) × Prepeek α L
  | [] => ([], s)
  | o :: os =>
    let p := runOp s o
    let q := runOps p.2 os
    (p.1 :: q.1, q.2)

/- ### Basic lemmas about the model -/

theorem iterNext_fst {α : Type} (iter : List (Option α)) :
    (iterNext iter).1 = iter.getD 0 none := by
  cases iter <;> rfl

theorem iterNext_snd {α : Type} (iter : List (Option α)) :
    (iterNext iter).2 = iter.tail := by
  cases iter <;> rfl

theorem tail_getD {α : Type} (l : List (Option α)) (n : Nat) :
    l.tail.getD n none = l.getD (n + 1) none := by
  cases l <;> simp [List.getD]

theorem getD_set_self {α : Type} (l : List (Option α)) (i : Nat) (v : Option α)
    (h : i < l.length) : (l.set i v).getD i none = v := by
  induction l generalizing i with
  | nil => simp at h
  | cons a as ih =>
    cases i with
    | zero => simp [List.getD]
    | succ i => simpa [List.getD] using ih i (by simpa using h)

theorem getD_set_ne {α : Type} (l : List (Option α)) (i j : Nat) (v : Option α)
    (h : i ≠ j) : (l.set i v).getD j none = l.getD j none := by
  induction l generalizing i j with
  | nil => simp
  | cons a as ih =>
    cases i with
    | zero =>
      cases j with
      | zero => exact absurd rfl h
      | succ j => simp [List.getD]
    | succ i =>
      cases j with
      | zero => simp [List.getD]
      | succ j => simpa [List.getD] using ih i j (by omega)

theorem add_mod_ne_of_lt {L r n : Nat} (hr : r < L) (hn : n + 1 < L) :
    (r + (n + 1)) % L ≠ r := by
  rcases Nat.lt_or_ge (r + (n + 1)) L with h | h
  · rw [Nat.mod_eq_of_lt h]; omega
  · rw [Nat.mod_eq_sub_mod h, Nat.mod_eq_of_lt (by omega)]; omega

/- ### State evolution lemmas -/

theorem Prepeek.next_fst_pos {α : Type} {L : Nat} (s : Prepeek α L) (hL : 0 < L) :
    (s.next).1 = s.ring.getD s.ring_index none := by
  simp [Prepeek.next, Nat.pos_iff_ne_zero.mp hL]

theorem Prepeek.next_snd_pos {α : Type} {L : Nat} (s : Prepeek α L) (hL : 0 < L) :
    (s.next).2 = ⟨(iterNext s.iter).2, s.ring.set s.ring_index (iterNext s.iter).1,
      (s.ring_index + 1) % L⟩ := by
  simp [Prepeek.next, Nat.pos_iff_ne_zero.mp hL]

theorem Prepeek.next_fst_zero {α : Type} (s : Prepeek α 0) :
    (s.next).1 = (iterNext s.iter).1 := by
  simp [Prepeek.next]

theorem Prepeek.next_snd_zero {α : Type} (s : Prepeek α 0) :
    (s.next).2 = ⟨(iterNext s.iter).2, s.ring, s.ring_index⟩ := by
  simp [Prepeek.next]

theorem Prepeek.next_iter {α : Type} {L : Nat} (s : Prepeek α L) :
    ((s.next).2).iter = (iterNext s.iter).2 := by
  by_cases hL : L = 0
  · subst hL; rw [Prepeek.next_snd_zero]
  · rw [Prepeek.next_snd_pos s (Nat.pos_of_ne_zero hL)]

theorem Prepeek.next_good {α : Type} {L : Nat} {s : Prepeek α L} (h : s.Good) :
    ((s.next).2).Good := by
  by_cases hL : L = 0
  · subst hL
    rw [Prepeek.next_snd_zero]
    exact ⟨h.1, h.2⟩
  · have hL' : 0 < L := Nat.pos_of_ne_zero hL
    rw [Prepeek.next_snd_pos s hL']
    exact ⟨by simpa using h.1, fun _ => Nat.mod_lt _ hL'⟩

theorem Prepeek.stateAfter_succ_left {α : Type} {L : Nat} (s : Prepeek α L) (k : Nat) :
    ((s.next).2).stateAfter k = s.stateAfter (k + 1) := by
  induction k with
  | zero => rfl
  | succ k ih => simp only [Prepeek.stateAfter, ih]

theorem Prepeek.stateAfter_good {α : Type} {L : Nat} {s : Prepeek α L} (h : s.Good)
    (k : Nat) : (s.stateAfter k).Good := by
  induction k with
  | zero => exact h
  | succ k ih => exact Prepeek.next_good ih

theorem Prepeek.output_succ {α : Type} {L : Nat} (s : Prepeek α L) (n : Nat) :
    s.output (n + 1) = ((s.next).2).output n := by
  unfold Prepeek.output
  rw [Prepeek.stateAfter_succ_left]

/- ### The master characterization: the `n`-th future output of a
well-formed state is the ring slot `(ring_index + n) % L` when `n < L`,
and the `(n - L)`-th remaining iterator response otherwise. -/

theorem Prepeek.output_eq {α : Type} {L : Nat} (s : Prepeek α L) (h : s.Good) (n : Nat) :
    s.output n = if n < L then s.ring.getD ((s.ring_index + n) % L) none
                 else s.iter.getD (n - L) none := by
  induction n generalizing s with
  | zero =>
    by_cases hL : L = 0
    · subst hL
      rw [if_neg (show ¬ (0 : Nat) < 0 by omega)]
      show (s.next).1 = _
      rw [Prepeek.next_fst_zero, iterNext_fst]
    · have hL' : 0 < L := Nat.pos_of_ne_zero hL
      rw [if_pos hL']
      show (s.next).1 = _
      rw [Prepeek.next_fst_pos s hL', Nat.add_zero,
        Nat.mod_eq_of_lt (h.2 hL')]
  | succ n ih =>
    rw [Prepeek.output_succ, ih _ (Prepeek.next_good h)]
    by_cases hL : L = 0
    · subst hL
      rw [Prepeek.next_snd_zero]
      dsimp only
      rw [if_neg (show ¬ n < 0 by omega), if_neg (show ¬ n + 1 < 0 by omega),
        iterNext_snd, tail_getD]
      congr 1
    · have hL' : 0 < L := Nat.pos_of_ne_zero hL
      have hri : s.ring_index < L := h.2 hL'
      rw [Prepeek.next_snd_pos s hL']
      dsimp only
      rcases Nat.lt_trichotomy (n + 1) L with hlt | heq | hgt
      · -- n + 1 < L: the written slot is not the slot being read
        rw [if_pos (show n < L by omega), if_pos hlt, Nat.mod_add_mod]
        have hne : s.ring_index ≠ (s.ring_index + 1 + n) % L := by
          have h1 : (s.ring_index + (n + 1)) % L ≠ s.ring_index :=
            add_mod_ne_of_lt hri hlt
          have h2 : s.ring_index + 1 + n = s.ring_index + (n + 1) := by omega
          rw [h2]
          exact fun hc => h1 hc.symm
        rw [getD_set_ne _ _ _ _ hne]
        congr 2
        omega
      · -- n + 1 = L: the slot read is exactly the one just written
        rw [if_pos (show n < L by omega), if_neg (show ¬ n + 1 < L by omega),
          Nat.mod_add_mod]
        have hidx : (s.ring_index + 1 + n) % L = s.ring_index := by
          have he : s.ring_index + 1 + n = s.ring_index + L := by omega
          rw [he, Nat.add_mod_right, Nat.mod_eq_of_lt hri]
        rw [hidx, getD_set_self _ _ _ (by rw [h.1]; exact hri),
          iterNext_fst]
        congr 1
        omega
      · -- n + 1 > L: both sides read from the iterator
        rw [if_neg (show ¬ n < L by omega), if_neg (show ¬ n + 1 < L by omega),
          iterNext_snd, tail_getD]
        congr 1
        omega

/- ### The primed state produced by `new` -/

theorem Prepeek.primeAux_eq_stateAfter {α : Type} {L : Nat} (k : Nat) (s : Prepeek α L) :
    Prepeek.primeAux k s = s.stateAfter k := by
  induction k generalizing s with
  | zero => rfl
  | succ k ih =>
    show Prepeek.primeAux k (s.next).2 = _
    rw [ih, Prepeek.stateAfter_succ_left]

theorem Prepeek.new_eq_stateAfter {α : Type} (L : Nat) (iter : List (Option α)) :
    Prepeek.new L iter = Prepeek.stateAfter ⟨iter, List.replicate L none, 0⟩ L :=
  Prepeek.primeAux_eq_stateAfter L _

theorem Prepeek.good_init {α : Type} (L : Nat) (iter : List (Option α)) :
    (⟨iter, List.replicate L none, 0⟩ : Prepeek α L).Good :=
  ⟨List.length_replicate L none, fun h => h⟩

theorem Prepeek.good_new {α : Type} (L : Nat) (iter : List (Option α)) :
    (Prepeek.new L iter).Good := by
  rw [Prepeek.new_eq_stateAfter]
  exact Prepeek.stateAfter_good (Prepeek.good_init L iter) L

theorem Prepeek.output_stateAfter {α : Type} {L : Nat} (s : Prepeek α L) (k n : Nat) :
    (s.stateAfter k).output n = s.output (k + n) := by
  induction k generalizing s with
  | zero => simp [Prepeek.stateAfter]
  | succ k ih =>
    rw [← Prepeek.stateAfter_succ_left, ih, ← Prepeek.output_succ]
    congr 1
    omega

theorem Prepeek.output_new {α : Type} (L : Nat) (iter : List (Option α)) (n : Nat) :
    (Prepeek.new L iter).output n = iter.getD n none := by
  rw [Prepeek.new_eq_stateAfter, Prepeek.output_stateAfter,
    Prepeek.output_eq _ (Prepeek.good_init L iter), if_neg (show ¬ L + n < L by omega)]
  dsimp only
  congr 1
  omega

theorem map_some_getD {α : Type} (xs : List α) (n : Nat) :
    (xs.map some).getD n none = xs[n]? := by
  induction xs generalizing n with
  | nil => simp [List.getD]
  | cons a as ih =>
    cases n with
    | zero => simp [List.getD]
    | succ n => simpa [List.getD] using ih n

theorem Prepeek.ring_index_next_pos {α : Type} {L : Nat} (s : Prepeek α L) (hL : 0 < L) :
    ((s.next).2).ring_index = (s.ring_index + 1) % L := by
  rw [Prepeek.next_snd_pos s hL]

theorem Prepeek.ring_index_stateAfter {α : Type} {L : Nat} (s : Prepeek α L)
    (h : s.Good) (hL : 0 < L) (k : Nat) :
    (s.stateAfter k).ring_index = (s.ring_index + k) % L := by
  induction k with
  | zero =>
    show s.ring_index = _
    rw [Nat.add_zero, Nat.mod_eq_of_lt (h.2 hL)]
  | succ k ih =>
    show ((s.stateAfter k).next).2.ring_index = _
    rw [Prepeek.ring_index_next_pos _ hL, ih, Nat.mod_add_mod]
    congr 1

theorem Prepeek.ring_index_new {α : Type} (L : Nat) (iter : List (Option α)) :
    (Prepeek.new L iter).ring_index = 0 := by
  by_cases hL : L = 0
  · subst hL; rfl
  · rw [Prepeek.new_eq_stateAfter,
      Prepeek.ring_index_stateAfter _ (Prepeek.good_init L iter) (Nat.pos_of_ne_zero hL)]
    dsimp only
    rw [Nat.zero_add, Nat.mod_self]

theorem Prepeek.new_ring_getD {α : Type} (L : Nat) (iter : List (Option α)) (j : Nat)
    (hj : j < L) : (Prepeek.new L iter).ring.getD j none = iter.getD j none := by
  have h1 := Prepeek.output_eq (Prepeek.new L iter) (Prepeek.good_new L iter) j
  rw [if_pos hj, Prepeek.ring_index_new, Nat.zero_add, Nat.mod_eq_of_lt hj] at h1
  rw [← h1, Prepeek.output_new]

theorem Prepeek.new_ring {α : Type} (L : Nat) (iter : List (Option α)) :
    (Prepeek.new L iter).ring = (List.range L).map (fun j => iter.getD j none) := by
  have hlen : (Prepeek.new L iter).ring.length = L := (Prepeek.good_new L iter).1
  apply List.ext_getElem
  · rw [hlen, List.length_map, List.length_range]
  · intro i h1 h2
    have hiL : i < L := by rw [hlen] at h1; exact h1
    have hD := Prepeek.new_ring_getD L iter i hiL
    rw [List.getD_eq_getElem _ _ h1] at hD
    rw [hD]
    simp

theorem runOps_replicate_peek {α : Type} {L : Nat} (s : Prepeek α L) (k n : Nat) :
    runOps s (List.replicate k (Op.peekN n)) = (List.replicate k (s.peek_nth n), s) := by
  induction k with
  | zero => rfl
  | succ k ih => simp [List.replicate_succ, runOps, runOp, ih]

/- ### The claims -/

/-- Claim C1 (transparency): for every lookahead depth `L ≥ 0` and every
finite underlying sequence `xs`, the `n`-th value produced by repeated
`next` calls on `Prepeek::new` equals the `n`-th element of `xs` when it
exists and `none` (exhaustion) for every later `n` — no element is lost,
duplicated or reordered, and nothing resurfaces after exhaustion. -/
theorem spec_C1 {α : Type} (L : Nat) (xs : List α) (n : Nat) :
    (Prepeek.new L (xs.map some)).output n = xs[n]? := by
  rw [Prepeek.output_new, map_some_getD]

/-- Claim C2 (ring-buffer invariant): in every state reachable by `k`
advances from a freshly constructed adapter, for every `n < L` the buffer
slot `(ring_index + n) % L` holds exactly the value the `n`-th future
advance will return, and `ring_index` lies in `[0, L)`. -/
theorem spec_C2 {α : Type} (L : Nat) (iter : List (Option α)) (k n : Nat) (hn : n < L) :
    (((Prepeek.new L iter).stateAfter k).ring.getD
        ((((Prepeek.new L iter).stateAfter k).ring_index + n) % L) none
      = ((Prepeek.new L iter).stateAfter k).output n)
    ∧ ((Prepeek.new L iter).stateAfter k).ring_index < L := by
  have hg := Prepeek.stateAfter_good (Prepeek.good_new L iter) k
  constructor
  · rw [Prepeek.output_eq _ hg n, if_pos hn]
  · exact hg.2 (by omega)

theorem spec_C2_witness :
    (0 < 2) ∧
    ((((Prepeek.new 2 [some 1, some 2, some (3:Nat)]).stateAfter 1).ring.getD
        ((((Prepeek.new 2 [some 1, some 2, some (3:Nat)]).stateAfter 1).ring_index + 0) % 2)
        none
      = ((Prepeek.new 2 [some 1, some 2, some (3:Nat)]).stateAfter 1).output 0)
    ∧ ((Prepeek.new 2 [some 1, some 2, some (3:Nat)]).stateAfter 1).ring_index < 2) :=
  ⟨by decide, spec_C2 2 [some 1, some 2, some (3:Nat)] 1 0 (by decide)⟩

/-- Claim C3 (peek predicts advance): in every reachable state, `peek_nth n`
returns exactly what the `(n+1)`-th subsequent `next` call will return when
`n < L`, and `none` when `n ≥ L` (the capacity ceiling). -/
theorem spec_C3 {α : Type} (L : Nat) (iter : List (Option α)) (k n : Nat) :
    ((Prepeek.new L iter).stateAfter k).peek_nth n
      = if n < L then ((Prepeek.new L iter).stateAfter k).output n else none := by
  have hg := Prepeek.stateAfter_good (Prepeek.good_new L iter) k
  by_cases hn : n < L
  · rw [if_pos hn]
    simp only [Prepeek.peek_nth]
    rw [if_neg (show ¬ n ≥ L by omega), Prepeek.output_eq _ hg n, if_pos hn]
  · rw [if_neg hn]
    simp only [Prepeek.peek_nth]
    rw [if_pos (show n ≥ L by omega)]

/-- Claim C4 (advance algorithm for `L > 0`, stated for depth `L + 1`):
`next` pulls exactly one value from the underlying producer, writes it into
the slot at `ring_index`, returns the value previously in that slot, steps
`ring_index` to `(ring_index + 1) % L`, and leaves every other slot
unchanged. -/
theorem spec_C4 {α : Type} (L : Nat) (s : Prepeek α (L + 1)) :
    (s.next).1 = s.ring.getD s.ring_index none ∧
    ((s.next).2).iter = (iterNext s.iter).2 ∧
    ((s.next).2).ring = s.ring.set s.ring_index (iterNext s.iter).1 ∧
    ((s.next).2).ring_index = (s.ring_index + 1) % (L + 1) ∧
    ∀ j : Nat, j ≠ s.ring_index → ((s.next).2).ring.getD j none = s.ring.getD j none := by
  have hp := Prepeek.next_snd_pos s (Nat.succ_pos L)
  refine ⟨Prepeek.next_fst_pos s (Nat.succ_pos L), ?_, ?_, ?_, ?_⟩
  · rw [hp]
  · rw [hp]
  · rw [hp]
  · intro j hj
    rw [hp]
    exact getD_set_ne _ _ _ _ (fun hc => hj hc.symm)

theorem spec_C4_witness :
    ((⟨[some 3], [some 1, some 2], 0⟩ : Prepeek Nat 2).next).2.ring.getD 1 none = some 2 := by
  have h := (spec_C4 1 (⟨[some 3], [some 1, some 2], 0⟩ : Prepeek Nat 2)).2.2.2.2 1 (by decide)
  rw [h]
  decide

/-- Claim C5 (capacity ceiling): for every adapter state, even an arbitrary
unreachable one, `peek_nth` at any offset `L + m ≥ L` returns `none`,
regardless of what remains in the underlying producer. -/
theorem spec_C5 {α : Type} {L : Nat} (s : Prepeek α L) (m : Nat) :
    s.peek_nth (L + m) = none := by
  simp only [Prepeek.peek_nth]
  rw [if_pos (Nat.le_add_right L m)]

/-- Claim C6 (construction): `new` equals `L` advances performed on the
initial state with a buffer of `L` exhaustion slots and ring index `0`; the
resulting buffer holds, in slot `j`, the `j`-th response of the producer
(`none` — an exhaustion marker — whenever the producer yields fewer than
`j + 1` values), and the ring index is back at `0`. Construction is a total
function: it never fails. -/
theorem spec_C6 {α : Type} (L : Nat) (iter : List (Option α)) :
    Prepeek.new L iter = Prepeek.stateAfter ⟨iter, List.replicate L none, 0⟩ L ∧
    (Prepeek.new L iter).ring = (List.range L).map (fun j => iter.getD j none) ∧
    (Prepeek.new L iter).ring_index = 0 :=
  ⟨Prepeek.new_eq_stateAfter L iter, Prepeek.new_ring L iter, Prepeek.ring_index_new L iter⟩

/-- Claim C7 (depth-zero boundary): with `L = 0`, `peek` and `peek_nth n`
always return `none`, while `next` is a pure pass-through: it returns
exactly the producer's next response and leaves the ring and ring index
untouched. -/
theorem spec_C7 {α : Type} (s : Prepeek α 0) (n : Nat) :
    s.peek = none ∧ s.peek_nth n = none ∧
    (s.next).1 = (iterNext s.iter).1 ∧
    (s.next).2 = ⟨(iterNext s.iter).2, s.ring, s.ring_index⟩ := by
  refine ⟨?_, ?_, Prepeek.next_fst_zero s, Prepeek.next_snd_zero s⟩
  · show s.peek_nth 0 = none
    simp only [Prepeek.peek_nth]
    rw [if_pos (Nat.zero_le 0)]
  · simp only [Prepeek.peek_nth]
    rw [if_pos (Nat.zero_le n)]

/-- Claim C8 (peek purity and idempotence): `peek` is exactly `peek_nth 0`;
any number `k` of consecutive `peek_nth n` calls observe the same value
each time, leave the state (buffer, ring index and producer) unchanged, and
do not alter what the subsequent `next` returns. -/
theorem spec_C8 {α : Type} {L : Nat} (s : Prepeek α L) (k n : Nat) :
    s.peek = s.peek_nth 0 ∧
    (runOps s (List.replicate k (Op.peekN n))).1 = List.replicate k (s.peek_nth n) ∧
    (runOps s (List.replicate k (Op.peekN n))).2 = s ∧
    ((runOps s (List.replicate k (Op.peekN n))).2).next = s.next := by
  have h := runOps_replicate_peek s k n
  exact ⟨rfl, by rw [h], by rw [h], by rw [h]⟩

/-- Claim C9 (zero-modulus safety): in every reachable state the ring has
exactly `L` slots; when `L > 0` the ring index is a valid position, and
every index `(ring_index + n) % L` the code computes for an offset `n < L`
is in bounds — so the guarded modular arithmetic never divides by zero and
never indexes out of bounds, for every depth including `L = 0`. -/
theorem spec_C9 {α : Type} (L : Nat) (iter : List (Option α)) (k : Nat) :
    (((Prepeek.new L iter).stateAfter k).ring.length = L) ∧
    (L = 0 ∨ ((Prepeek.new L iter).stateAfter k).ring_index
        < ((Prepeek.new L iter).stateAfter k).ring.length) ∧
    ∀ n : Fin L, (((Prepeek.new L iter).stateAfter k).ring_index + n.val) % L
        < ((Prepeek.new L iter).stateAfter k).ring.length := by
  have hg := Prepeek.stateAfter_good (Prepeek.good_new L iter) k
  refine ⟨hg.1, ?_, ?_⟩
  · rcases Nat.eq_zero_or_pos L with h0 | hpos
    · exact Or.inl h0
    · exact Or.inr (by rw [hg.1]; exact hg.2 hpos)
  · intro n
    rw [hg.1]
    exact Nat.mod_lt _ (Nat.lt_of_le_of_lt (Nat.zero_le _) n.isLt)

/-- Claim C10 (not fused, eager pulling): every `next` call consumes exactly
one response from the underlying producer — in every state, for every depth
including `L = 0`, even after the producer has signalled exhaustion — and
consequently a non-fused producer's post-exhaustion element enters the
buffer and is eventually returned: the `n`-th output of the adapter is the
`n`-th producer response verbatim, `some` or `none`. -/
theorem spec_C10 {α : Type} (L : Nat) (iter : List (Option α)) (n : Nat)
    (s : Prepeek α L) :
    ((s.next).2).iter = (iterNext s.iter).2 ∧
    (Prepeek.new L iter).output n = iter.getD n none :=
  ⟨Prepeek.next_iter s, Prepeek.output_new L iter n⟩
